import Mathlib

/-!
Verification of the `seg_tree` repository (src/main.rs): a segment tree
over a half-open interval `[lo, hi)` of `usize` indices, storing `i32`
values, with point update (`revise`), range-sum query (`ask`) and
construction (`new` / `build`).

The embedding mirrors the Rust source:
* `SegTree` is the Rust struct: a value, a covered range, a precomputed
  midpoint, and two optional children (the Rust `Option<Rc<RefCell<_>>>`
  fields become plain `Option SegTree`; the tree is never aliased, so
  `Rc<RefCell<_>>` is pure state).
* `usize` indices become `Nat`; `i32` values become `Int` together with
  explicit two's-complement wrapping (`i32wrap`) at every `i32` addition,
  which is Rust's release-mode overflow semantics.
* Rust panics become `Except.error` carrying the panic message.
* The recursion of `build` is not structurally terminating for width-0
  ranges (the Rust code loops forever on them), so construction takes a
  fuel argument; `none` means the fuel ran out, and divergence of the
  Rust code is the statement that the result is `none` for every fuel.
-/

namespace SegTreeModel

/-- The Rust struct `SegTree { val, range, mid, l_node, r_node }`. -/
inductive SegTree : Type where
  | mk (val : Int) (range : Nat × Nat) (mid : Nat)
      (l_node : Option SegTree) (r_node : Option SegTree)

/-- Field accessor for `val`. -/
def SegTree.val : SegTree → Int
  | .mk v _ _ _ _ => v

/-- Field accessor for `range`. -/
def SegTree.range : SegTree → Nat × Nat
  | .mk _ rg _ _ _ => rg

/-- Field accessor for `mid`. -/
def SegTree.mid : SegTree → Nat
  | .mk _ _ m _ _ => m

/-- Field accessor for `l_node`. -/
def SegTree.l_node : SegTree → Option SegTree
  | .mk _ _ _ l _ => l

/-- Field accessor for `r_node`. -/
def SegTree.r_node : SegTree → Option SegTree
  | .mk _ _ _ _ r => r

/-- Two's-complement wrap of an integer into the `i32` range
`[-2147483648, 2147483648)`: reduction modulo `2^32 = 4294967296`
followed by the shift into the signed range. This is what Rust's `+`
on `i32` computes (release profile / wrapping semantics). -/
def i32wrap (x : Int) : Int :=
  (x + 2147483648) % 4294967296 - 2147483648

/-- The Rust `SegTree::comb(a, b) = a + b` on `i32`. -/
def comb (a b : Int) : Int :=
  i32wrap (a + b)

/-- The Rust `self.l_node.as_ref().map_or(0, |n| n.borrow().val)` pattern:
the value of an optional child, defaulting to 0. -/
def optVal : Option SegTree → Int
  | none => 0
  | some t => t.val

/-- The Rust `SegTree::build(l_bound, r_bound)`, with fuel for the
recursion. `none` means the fuel was exhausted; the Rust function
recurses without a decreasing measure when `r_bound - l_bound ≠ 1`
and the midpoint equals `l_bound`, so width-0 calls return `none`
for every fuel. Subtraction is `Nat` subtraction, matching `usize`. -/
def build (fuel : Nat) (l_bound r_bound : Nat) : Option SegTree :=
  match fuel with
  | 0 => none
  | fuel + 1 =>
    if r_bound - l_bound = 1 then
      some (.mk 0 (l_bound, r_bound) l_bound none none)
    else
      let m := l_bound + (r_bound - l_bound) / 2
      match build fuel l_bound m, build fuel m r_bound with
      | some lt, some rt => some (.mk 0 (l_bound, r_bound) m (some lt) (some rt))
      | _, _ => none

/-- The Rust `SegTree::new(l, r)`: panics (here `Except.error`) when
`l >= r`, otherwise makes a root node whose children are `build(l, m)`
and `build(m, r)`. The outer `Option` is the fuel of the two `build`
calls: `none` means they did not finish within `fuel` steps. -/
def newT (fuel : Nat) (l r : Nat) : Option (Except String SegTree) :=
  if r ≤ l then
    some (.error "Invalid range: left bound must be less than right bound")
  else
    let m := l + (r - l) / 2
    match build fuel l m, build fuel m r with
    | some lt, some rt => some (.ok (.mk 0 (l, r) m (some lt) (some rt)))
    | _, _ => none

/-- The Rust `SegTree::revise(target_pos, value)`: point update.
Mutation of the node becomes returning the updated node; the panic
"Target index out of range" becomes `Except.error`. After a recursive
update the node recomputes `val` as `comb` of the children's values
(`map_or 0` when a child is absent), exactly as the source does. -/
def revise (t : SegTree) (target_pos : Nat) (value : Int) :
    Except String SegTree :=
  match t with
  | .mk _v rg m l r =>
    if target_pos < rg.1 ∨ rg.2 ≤ target_pos then
      .error "Target index out of range"
    else if (target_pos, target_pos + 1) = rg then
      .ok (.mk value rg m l r)
    else if target_pos < m then
      match l with
      | some left =>
        match revise left target_pos value with
        | .error e => .error e
        | .ok left' =>
          .ok (.mk (comb (optVal (some left')) (optVal r)) rg m (some left') r)
      | none => .ok (.mk (comb (optVal none) (optVal r)) rg m none r)
    else
      match r with
      | some right =>
        match revise right target_pos value with
        | .error e => .error e
        | .ok right' =>
          .ok (.mk (comb (optVal l) (optVal (some right'))) rg m l (some right'))
      | none => .ok (.mk (comb (optVal l) (optVal none)) rg m l none)

/-- The Rust `SegTree::ask(l, r)`: range-sum query. The panic
"Invalid query range" becomes `Except.error`; the final straddling
case adds the two partial results with `i32` addition (`i32wrap`),
as `left_val + right_val` does in the source. -/
def ask (t : SegTree) (l r : Nat) : Except String Int :=
  match t with
  | .mk v rg m ln rn =>
    if r ≤ l ∨ l < rg.1 ∨ rg.2 < r then
      .error "Invalid query range"
    else if (l, r) = rg then
      .ok v
    else if r ≤ m then
      match ln with
      | none => .ok 0
      | some left => ask left l r
    else if m ≤ l then
      match rn with
      | none => .ok 0
      | some right => ask right l r
    else
      match (match ln with
             | none => Except.ok 0
             | some left => ask left l m) with
      | .error e => .error e
      | .ok left_val =>
        match (match rn with
               | none => Except.ok 0
               | some right => ask right m r) with
        | .error e => .error e
        | .ok right_val => .ok (i32wrap (left_val + right_val))

/-- A sequence of point updates applied left to right; the first failing
update aborts the sequence with its error, like a Rust panic would. -/
def applyUpdates (t : SegTree) : List (Nat × Int) → Except String SegTree
  | [] => .ok t
  | (i, v) :: rest =>
    match revise t i v with
    | .error e => .error e
    | .ok t' => applyUpdates t' rest

/-- The model of a sequence of updates as a map from index to its
most-recently-set value; an index never updated maps to 0. -/
def lastVal (us : List (Nat × Int)) : Nat → Int :=
  us.foldl (fun f p j => if j = p.1 then p.2 else f j) (fun _ => 0)

/-- Membership of an integer in the `i32` range. -/
def in32 (v : Int) : Bool :=
  decide (-2147483648 ≤ v) && decide (v < 2147483648)

/-- Structural well-formedness, as `SegTree::build` guarantees it: a
node either is a leaf (no children, width-1 range, `mid` at the left
bound) or has both children, width at least 2, `mid` at the split
point, and children covering `[lo, mid)` and `[mid, hi)`. -/
def wf : SegTree → Bool
  | .mk _ rg m none none =>
    (rg.2 == rg.1 + 1) && (m == rg.1)
  | .mk _ _ _ none (some _) => false
  | .mk _ _ _ (some _) none => false
  | .mk _ rg m (some lt) (some rt) =>
    decide (rg.1 + 2 ≤ rg.2) && (m == rg.1 + (rg.2 - rg.1) / 2) &&
    (lt.range == (rg.1, m)) && (rt.range == (m, rg.2)) &&
    wf lt && wf rt

/-- Value consistency: every node with a child stores exactly
`comb` of its children's values (`map_or 0` for an absent child),
as `revise` re-establishes on the way back up. -/
def combOk : SegTree → Bool
  | .mk _ _ _ none none => true
  | .mk v _ _ none (some rt) =>
    (v == comb (optVal none) (optVal (some rt))) && combOk rt
  | .mk v _ _ (some lt) none =>
    (v == comb (optVal (some lt)) (optVal none)) && combOk lt
  | .mk v _ _ (some lt) (some rt) =>
    (v == comb (optVal (some lt)) (optVal (some rt))) && combOk lt && combOk rt

/-- Every leaf value lies in the `i32` range (true of the Rust program,
whose stored values are `i32` by type). -/
def valsIn32 : SegTree → Bool
  | .mk v _ _ none none => in32 v
  | .mk _ _ _ none (some rt) => valsIn32 rt
  | .mk _ _ _ (some lt) none => valsIn32 lt
  | .mk _ _ _ (some lt) (some rt) => valsIn32 lt && valsIn32 rt

/-- The abstraction of a tree as a map from index to its leaf value,
reading leaves by the same `mid`-descent the code uses. -/
def leafFun : SegTree → Nat → Int
  | .mk v _ _ none none, _ => v
  | .mk _ _ m none (some rt), i => if i < m then 0 else leafFun rt i
  | .mk _ _ m (some lt) none, i => if i < m then leafFun lt i else 0
  | .mk _ _ m (some lt) (some rt), i => if i < m then leafFun lt i else leafFun rt i

/-- The subtree reached from `t` by a path of child steps
(`false` = left child, `true` = right child); `none` when the path
leaves the tree. Every node of `t` is `subtreeAt t p` for exactly
one path `p`. -/
def subtreeAt : SegTree → List Bool → Option SegTree
  | t, [] => some t
  | .mk _ _ _ l _, false :: p =>
    match l with
    | none => none
    | some c => subtreeAt c p
  | .mk _ _ _ _ r, true :: p =>
    match r with
    | none => none
    | some c => subtreeAt c p

/-- Folding a list of updates over an index-to-value map, later
updates overriding earlier ones; `lastVal us = updFold us 0`. -/
def updFold (us : List (Nat × Int)) (f : Nat → Int) : Nat → Int :=
  us.foldl (fun g p j => if j = p.1 then p.2 else g j) f

/-- A concrete tree over `[0, 2)`: the result of `SegTree::new(0, 2)`. -/
def tree2 : SegTree :=
  .mk 0 (0, 2) 1 (some (.mk 0 (0, 1) 0 none none))
    (some (.mk 0 (1, 2) 1 none none))

/-- `tree2` after `revise(0, 2147483647)` and `revise(1, 1)`: the two
leaves hold the written values and the root holds their `i32`-wrapped
sum `-2147483648`. -/
def tree2w : SegTree :=
  .mk (-2147483648) (0, 2) 1 (some (.mk 2147483647 (0, 1) 0 none none))
    (some (.mk 1 (1, 2) 1 none none))

/-- `tree2` after `revise(0, 5)`. -/
def tree2u5 : SegTree :=
  .mk 5 (0, 2) 1 (some (.mk 5 (0, 1) 0 none none))
    (some (.mk 0 (1, 2) 1 none none))

/-- A concrete tree over `[0, 10)`: the result of `SegTree::new(0, 10)`. -/
def tree10 : SegTree :=
  .mk 0 (0, 10) 5
    (some (.mk 0 (0, 5) 2
      (some (.mk 0 (0, 2) 1
        (some (.mk 0 (0, 1) 0 none none))
        (some (.mk 0 (1, 2) 1 none none))))
      (some (.mk 0 (2, 5) 3
        (some (.mk 0 (2, 3) 2 none none))
        (some (.mk 0 (3, 5) 4
          (some (.mk 0 (3, 4) 3 none none))
          (some (.mk 0 (4, 5) 4 none none))))))))
    (some (.mk 0 (5, 10) 7
      (some (.mk 0 (5, 7) 6
        (some (.mk 0 (5, 6) 5 none none))
        (some (.mk 0 (6, 7) 6 none none))))
      (some (.mk 0 (7, 10) 8
        (some (.mk 0 (7, 8) 7 none none))
        (some (.mk 0 (8, 10) 9
          (some (.mk 0 (8, 9) 8 none none))
          (some (.mk 0 (9, 10) 9 none none))))))))

/-- The update sequence of the documented demo: set index `i` to `i`
for `i = 0, ..., 9`. -/
def demoUpdates : List (Nat × Int) :=
  [(0, 0), (1, 1), (2, 2), (3, 3), (4, 4), (5, 5), (6, 6), (7, 7),
   (8, 8), (9, 9)]

/-- Induction over `SegTree` through the `Option`-typed children. -/
theorem segInduction (P : SegTree → Prop)
    (h : ∀ v rg m l r, (∀ t, l = some t → P t) → (∀ t, r = some t → P t) →
      P (.mk v rg m l r)) :
    ∀ t, P t
  | .mk v rg m l r =>
    h v rg m l r
      (fun t ht => by
        have : sizeOf t < sizeOf (SegTree.mk v rg m l r) := by
          subst ht; simp; omega
        exact segInduction P h t)
      (fun t ht => by
        have : sizeOf t < sizeOf (SegTree.mk v rg m l r) := by
          subst ht; simp; omega
        exact segInduction P h t)
termination_by t => sizeOf t

@[simp]
theorem val_mk (v : Int) (rg : Nat × Nat) (m : Nat) (l r : Option SegTree) :
    (SegTree.mk v rg m l r).val = v := rfl

@[simp]
theorem range_mk (v : Int) (rg : Nat × Nat) (m : Nat) (l r : Option SegTree) :
    (SegTree.mk v rg m l r).range = rg := rfl

@[simp]
theorem mid_mk (v : Int) (rg : Nat × Nat) (m : Nat) (l r : Option SegTree) :
    (SegTree.mk v rg m l r).mid = m := rfl

@[simp]
theorem l_node_mk (v : Int) (rg : Nat × Nat) (m : Nat) (l r : Option SegTree) :
    (SegTree.mk v rg m l r).l_node = l := rfl

@[simp]
theorem r_node_mk (v : Int) (rg : Nat × Nat) (m : Nat) (l r : Option SegTree) :
    (SegTree.mk v rg m l r).r_node = r := rfl

theorem i32wrap_eq_self {v : Int} (h1 : -2147483648 ≤ v) (h2 : v < 2147483648) :
    i32wrap v = v := by
  unfold i32wrap
  omega

theorem i32wrap_lb (x : Int) : -2147483648 ≤ i32wrap x := by
  unfold i32wrap
  omega

theorem i32wrap_ub (x : Int) : i32wrap x < 2147483648 := by
  unfold i32wrap
  omega

theorem i32wrap_emod (x : Int) : i32wrap x % 4294967296 = x % 4294967296 := by
  unfold i32wrap
  omega

theorem i32wrap_add_left (a b : Int) : i32wrap (i32wrap a + b) = i32wrap (a + b) := by
  unfold i32wrap
  omega

theorem i32wrap_add_right (a b : Int) : i32wrap (a + i32wrap b) = i32wrap (a + b) := by
  unfold i32wrap
  omega

theorem in32_i32wrap_eq_self {v : Int} (h : in32 v = true) : i32wrap v = v := by
  simp only [in32, Bool.and_eq_true, decide_eq_true_eq] at h
  exact i32wrap_eq_self h.1 h.2

/-- A `build` call on an empty (or inverted) range never finishes: the
midpoint sticks at the left bound and the recursion never shrinks. -/
theorem build_empty_range_none : ∀ fuel l r, r ≤ l → build fuel l r = none := by
  intro fuel
  induction fuel with
  | zero => intro l r _; rfl
  | succ n ih =>
    intro l r h
    have h1 : r - l = 0 := by omega
    have h2 : l + (r - l) / 2 = l := by omega
    simp only [build, h1]
    norm_num [h2, ih l l le_rfl]

/-- Everything `SegTree::build` guarantees about a tree it returns:
the range is as requested, the structural invariant holds, values are
consistent and zero, and every leaf reads as 0. -/
theorem build_sound : ∀ fuel l r t, build fuel l r = some t →
    t.range = (l, r) ∧ wf t = true ∧ combOk t = true ∧ valsIn32 t = true ∧
    t.val = 0 ∧ ∀ j, leafFun t j = 0 := by
  intro fuel
  induction fuel with
  | zero => intro l r t h; exact absurd h (by simp [build])
  | succ n ih =>
    intro l r t h
    rw [build] at h
    by_cases h1 : r - l = 1
    · simp only [h1, if_pos rfl] at h
      cases h
      refine ⟨rfl, ?_, ?_, ?_, rfl, fun j => rfl⟩
      · simp only [wf]
        have : r = l + 1 := by omega
        simp [this]
      · rfl
      · rfl
    · simp only [if_neg h1] at h
      rcases hl : build n l (l + (r - l) / 2) with _ | lt
      · rw [hl] at h; simp at h
      rcases hr : build n (l + (r - l) / 2) r with _ | rt
      · rw [hl, hr] at h; simp at h
      rw [hl, hr] at h
      simp only [Option.some.injEq] at h
      subst h
      obtain ⟨hlrg, hlwf, hlcomb, hlvals, hlval, hlleaf⟩ := ih _ _ _ hl
      obtain ⟨hrrg, hrwf, hrcomb, hrvals, hrval, hrleaf⟩ := ih _ _ _ hr
      have hlm : l < l + (r - l) / 2 := by
        by_contra hc
        rw [build_empty_range_none n l _ (by omega)] at hl
        exact Option.noConfusion hl
      have hmr : l + (r - l) / 2 < r := by
        by_contra hc
        rw [build_empty_range_none n _ r (by omega)] at hr
        exact Option.noConfusion hr
      refine ⟨rfl, ?_, ?_, ?_, rfl, ?_⟩
      · simp [wf, hlrg, hrrg, hlwf, hrwf]
        all_goals omega
      · simp only [combOk, Bool.and_eq_true, beq_iff_eq]
        refine ⟨⟨?_, hlcomb⟩, hrcomb⟩
        simp only [optVal, hlval, hrval, comb, i32wrap]
        omega
      · simp only [valsIn32, Bool.and_eq_true]
        exact ⟨hlvals, hrvals⟩
      · intro j
        simp only [leafFun]
        by_cases hj : j < l + (r - l) / 2
        · simp [hj, hlleaf]
        · simp [hj, hrleaf]

/-- Everything `SegTree::new` guarantees about a tree it returns. -/
theorem new_sound {fuel l r : Nat} {t : SegTree} (h : newT fuel l r = some (.ok t)) :
    l + 2 ≤ r ∧ t.range = (l, r) ∧ wf t = true ∧ combOk t = true ∧
    valsIn32 t = true ∧ t.val = 0 ∧ ∀ j, leafFun t j = 0 := by
  rw [newT] at h
  by_cases hlr : r ≤ l
  · simp [if_pos hlr] at h
  simp only [if_neg hlr] at h
  rcases hl : build fuel l (l + (r - l) / 2) with _ | lt
  · rw [hl] at h; simp at h
  rcases hr : build fuel (l + (r - l) / 2) r with _ | rt
  · rw [hl, hr] at h; simp at h
  rw [hl, hr] at h
  simp only [Option.some.injEq, Except.ok.injEq] at h
  subst h
  obtain ⟨hlrg, hlwf, hlcomb, hlvals, hlval, hlleaf⟩ := build_sound _ _ _ _ hl
  obtain ⟨hrrg, hrwf, hrcomb, hrvals, hrval, hrleaf⟩ := build_sound _ _ _ _ hr
  have hlm : l < l + (r - l) / 2 := by
    by_contra hc
    rw [build_empty_range_none fuel l _ (by omega)] at hl
    exact Option.noConfusion hl
  have hmr : l + (r - l) / 2 < r := by
    by_contra hc
    rw [build_empty_range_none fuel _ r (by omega)] at hr
    exact Option.noConfusion hr
  refine ⟨by omega, rfl, ?_, ?_, ?_, rfl, ?_⟩
  · simp [wf, hlrg, hrrg, hlwf, hrwf]
    all_goals omega
  · simp only [combOk, Bool.and_eq_true, beq_iff_eq]
    refine ⟨⟨?_, hlcomb⟩, hrcomb⟩
    simp only [optVal, hlval, hrval, comb, i32wrap]
    omega
  · simp only [valsIn32, Bool.and_eq_true]
    exact ⟨hlvals, hrvals⟩
  · intro j
    simp only [leafFun]
    by_cases hj : j < l + (r - l) / 2
    · simp [hj, hlleaf]
    · simp [hj, hrleaf]

theorem wf_leaf_iff (v : Int) (a b m : Nat) :
    wf (.mk v (a, b) m none none) = true ↔ b = a + 1 ∧ m = a := by
  simp [wf]

theorem wf_node_iff (v : Int) (a b m : Nat) (lt rt : SegTree) :
    wf (.mk v (a, b) m (some lt) (some rt)) = true ↔
      a + 2 ≤ b ∧ m = a + (b - a) / 2 ∧ lt.range = (a, m) ∧
      rt.range = (m, b) ∧ wf lt = true ∧ wf rt = true := by
  simp [wf, and_assoc]

theorem combOk_node_iff (v : Int) (rg : Nat × Nat) (m : Nat) (lt rt : SegTree) :
    combOk (.mk v rg m (some lt) (some rt)) = true ↔
      v = comb lt.val rt.val ∧ combOk lt = true ∧ combOk rt = true := by
  simp [combOk, optVal, and_assoc]

theorem valsIn32_node_iff (v : Int) (rg : Nat × Nat) (m : Nat) (lt rt : SegTree) :
    valsIn32 (.mk v rg m (some lt) (some rt)) = true ↔
      valsIn32 lt = true ∧ valsIn32 rt = true := by
  simp [valsIn32]

theorem leafFun_node (v : Int) (rg : Nat × Nat) (m : Nat) (lt rt : SegTree) (j : Nat) :
    leafFun (.mk v rg m (some lt) (some rt)) j =
      if j < m then leafFun lt j else leafFun rt j := rfl

/-- Everything a successful `revise` preserves and changes: the shape
invariant and the node's range and midpoint survive, value consistency
survives, leaf values stay in `i32` range when the written value is,
and the leaf map changes exactly at the updated index. -/
theorem revise_sound :
    ∀ t, wf t = true → ∀ i v t', revise t i v = .ok t' →
      wf t' = true ∧ t'.range = t.range ∧ t'.mid = t.mid ∧
      (combOk t = true → combOk t' = true) ∧
      (valsIn32 t = true → in32 v = true → valsIn32 t' = true) ∧
      (∀ j, t.range.1 ≤ j → j < t.range.2 →
        leafFun t' j = if j = i then v else leafFun t j) := by
  refine segInduction _ ?_
  intro v0 rg m l r ihl ihr hwf i v t' hrev
  obtain ⟨a, b⟩ := rg
  rcases l with _ | lt <;> rcases r with _ | rt
  · -- leaf
    obtain ⟨hb, hm⟩ := (wf_leaf_iff v0 a b m).mp hwf
    subst hb hm
    simp only [revise] at hrev
    split at hrev
    · exact absurd hrev (by simp)
    split at hrev
    · rename_i hin hexact
      simp only [Except.ok.injEq] at hrev
      subst hrev
      simp only [Prod.mk.injEq] at hexact
      obtain ⟨hia, _⟩ := hexact
      subst hia
      refine ⟨hwf, rfl, rfl, fun _ => rfl, ?_, ?_⟩
      · intro _ h32
        simpa [valsIn32] using h32
      · intro j hj1 hj2
        have : j = i := by simp at hj1 hj2; omega
        subst this
        simp [leafFun]
    · rename_i hin hexact
      exfalso
      simp only [Prod.mk.injEq, not_and] at hexact
      split at hrev <;> simp at hin <;> omega
  · simp [wf] at hwf
  · simp [wf] at hwf
  · -- internal node
    obtain ⟨hab, hm, hltr, hrtr, hwfl, hwfr⟩ := (wf_node_iff v0 a b m lt rt).mp hwf
    simp only [revise] at hrev
    split at hrev
    · exact absurd hrev (by simp)
    rename_i hin
    split at hrev
    · rename_i hexact
      exfalso
      simp only [Prod.mk.injEq] at hexact
      omega
    rename_i hexact
    simp only [not_or, not_lt, not_le] at hin
    obtain ⟨hia, hib⟩ := hin
    split at hrev
    · -- descend left
      rename_i him
      split at hrev
      · exact absurd hrev (by simp)
      rename_i left' heq
      simp only [Except.ok.injEq] at hrev
      subst hrev
      obtain ⟨hwf', hrg', hmid', hcomb', hvals', hleaf'⟩ :=
        ihl lt rfl hwfl i v left' heq
      rw [hltr] at hrg'
      refine ⟨?_, rfl, rfl, ?_, ?_, ?_⟩
      · exact (wf_node_iff _ a b m left' rt).mpr ⟨hab, hm, hrg', hrtr, hwf', hwfr⟩
      · intro hc
        obtain ⟨_, hcl, hcr⟩ := (combOk_node_iff v0 (a, b) m lt rt).mp hc
        exact (combOk_node_iff _ (a, b) m left' rt).mpr
          ⟨by simp [optVal], hcomb' hcl, hcr⟩
      · intro hvs h32
        obtain ⟨hvl, hvr⟩ := (valsIn32_node_iff v0 (a, b) m lt rt).mp hvs
        exact (valsIn32_node_iff _ (a, b) m left' rt).mpr ⟨hvals' hvl h32, hvr⟩
      · intro j hj1 hj2
        simp only [range_mk] at hj1 hj2
        rw [leafFun_node, leafFun_node]
        by_cases hjm : j < m
        · rw [if_pos hjm, if_pos hjm]
          exact hleaf' j (by rw [hltr]; exact hj1) (by rw [hltr]; exact hjm)
        · rw [if_neg hjm, if_neg hjm, if_neg (by omega)]
    · -- descend right
      rename_i him
      split at hrev
      · exact absurd hrev (by simp)
      rename_i right' heq
      simp only [Except.ok.injEq] at hrev
      subst hrev
      obtain ⟨hwf', hrg', hmid', hcomb', hvals', hleaf'⟩ :=
        ihr rt rfl hwfr i v right' heq
      rw [hrtr] at hrg'
      refine ⟨?_, rfl, rfl, ?_, ?_, ?_⟩
      · exact (wf_node_iff _ a b m lt right').mpr ⟨hab, hm, hltr, hrg', hwfl, hwf'⟩
      · intro hc
        obtain ⟨_, hcl, hcr⟩ := (combOk_node_iff v0 (a, b) m lt rt).mp hc
        exact (combOk_node_iff _ (a, b) m lt right').mpr
          ⟨by simp [optVal], hcl, hcomb' hcr⟩
      · intro hvs h32
        obtain ⟨hvl, hvr⟩ := (valsIn32_node_iff v0 (a, b) m lt rt).mp hvs
        exact (valsIn32_node_iff _ (a, b) m lt right').mpr ⟨hvl, hvals' hvr h32⟩
      · intro j hj1 hj2
        simp only [range_mk] at hj1 hj2
        rw [leafFun_node, leafFun_node]
        by_cases hjm : j < m
        · rw [if_pos hjm, if_pos hjm, if_neg (by omega)]
        · rw [if_neg hjm, if_neg hjm]
          exact hleaf' j (by rw [hrtr]; omega) (by rw [hrtr]; exact hj2)

/-- An out-of-range update panics at once, on any tree: the bounds
check is the first thing `revise` does. -/
theorem revise_error_of_out (t : SegTree) (i : Nat) (v : Int)
    (h : i < t.range.1 ∨ t.range.2 ≤ i) :
    revise t i v = .error "Target index out of range" := by
  obtain ⟨v0, rg, m, l, r⟩ := t
  simp only [range_mk] at h
  rcases l with _ | lt <;> rcases r with _ | rt <;>
    (simp only [revise]; rw [if_pos h])

/-- An in-range update on a well-formed tree always succeeds. -/
theorem revise_ok_of_in :
    ∀ t, wf t = true → ∀ i v, t.range.1 ≤ i → i < t.range.2 →
      ∃ t', revise t i v = .ok t' := by
  refine segInduction _ ?_
  intro v0 rg m l r ihl ihr hwf i v hi1 hi2
  obtain ⟨a, b⟩ := rg
  simp only [range_mk] at hi1 hi2
  rcases l with _ | lt <;> rcases r with _ | rt
  · obtain ⟨hb, hm⟩ := (wf_leaf_iff v0 a b m).mp hwf
    subst hb hm
    refine ⟨.mk v (m, m + 1) m none none, ?_⟩
    simp only [revise]
    rw [if_neg (by omega), if_pos (by simp only [Prod.mk.injEq]; omega)]
  · simp [wf] at hwf
  · simp [wf] at hwf
  · obtain ⟨hab, hm, hltr, hrtr, hwfl, hwfr⟩ := (wf_node_iff v0 a b m lt rt).mp hwf
    by_cases him : i < m
    · obtain ⟨lt', hlt'⟩ := ihl lt rfl hwfl i v
        (by rw [hltr]; exact hi1) (by rw [hltr]; exact him)
      refine ⟨.mk (comb (optVal (some lt')) (optVal (some rt))) (a, b) m
        (some lt') (some rt), ?_⟩
      simp only [revise]
      rw [if_neg (by omega), if_neg (by simp only [Prod.mk.injEq]; omega),
        if_pos him, hlt']
    · obtain ⟨rt', hrt'⟩ := ihr rt rfl hwfr i v
        (by rw [hrtr]; simp; omega) (by rw [hrtr]; exact hi2)
      refine ⟨.mk (comb (optVal (some lt)) (optVal (some rt'))) (a, b) m
        (some lt) (some rt'), ?_⟩
      simp only [revise]
      rw [if_neg (by omega), if_neg (by simp only [Prod.mk.injEq]; omega),
        if_neg him, hrt']

/-- Updating the same index with the same value a second time returns
the tree unchanged: the leaf is overwritten with the value it already
holds, and every recombination on the way up recomputes the value the
node already holds. -/
theorem revise_idem :
    ∀ t, ∀ i v t1, revise t i v = .ok t1 → revise t1 i v = .ok t1 := by
  refine segInduction (fun t => ∀ i v t1, revise t i v = .ok t1 →
    revise t1 i v = .ok t1) ?_
  intro v0 rg m l r ihl ihr i v t1 hrev
  rcases l with _ | lt <;> rcases r with _ | rt <;>
    simp only [revise] at hrev
  · split at hrev
    · exact absurd hrev (by simp)
    rename_i hin
    split at hrev
    · rename_i hexact
      simp only [Except.ok.injEq] at hrev
      subst hrev
      simp only [revise]
      rw [if_neg hin, if_pos hexact]
    rename_i hexact
    split at hrev
    · rename_i him
      simp only [Except.ok.injEq] at hrev
      subst hrev
      simp only [revise]
      rw [if_neg hin, if_neg hexact, if_pos him]
    · rename_i him
      simp only [Except.ok.injEq] at hrev
      subst hrev
      simp only [revise]
      rw [if_neg hin, if_neg hexact, if_neg him]
  · split at hrev
    · exact absurd hrev (by simp)
    rename_i hin
    split at hrev
    · rename_i hexact
      simp only [Except.ok.injEq] at hrev
      subst hrev
      simp only [revise]
      rw [if_neg hin, if_pos hexact]
    rename_i hexact
    split at hrev
    · rename_i him
      simp only [Except.ok.injEq] at hrev
      subst hrev
      simp only [revise]
      rw [if_neg hin, if_neg hexact, if_pos him]
    · rename_i him
      split at hrev
      · exact absurd hrev (by simp)
      rename_i right' heq
      simp only [Except.ok.injEq] at hrev
      subst hrev
      simp only [revise]
      rw [if_neg hin, if_neg hexact, if_neg him, ihr rt rfl i v right' heq]
  · split at hrev
    · exact absurd hrev (by simp)
    rename_i hin
    split at hrev
    · rename_i hexact
      simp only [Except.ok.injEq] at hrev
      subst hrev
      simp only [revise]
      rw [if_neg hin, if_pos hexact]
    rename_i hexact
    split at hrev
    · rename_i him
      split at hrev
      · exact absurd hrev (by simp)
      rename_i left' heq
      simp only [Except.ok.injEq] at hrev
      subst hrev
      simp only [revise]
      rw [if_neg hin, if_neg hexact, if_pos him, ihl lt rfl i v left' heq]
    · rename_i him
      simp only [Except.ok.injEq] at hrev
      subst hrev
      simp only [revise]
      rw [if_neg hin, if_neg hexact, if_neg him]
  · split at hrev
    · exact absurd hrev (by simp)
    rename_i hin
    split at hrev
    · rename_i hexact
      simp only [Except.ok.injEq] at hrev
      subst hrev
      simp only [revise]
      rw [if_neg hin, if_pos hexact]
    rename_i hexact
    split at hrev
    · rename_i him
      split at hrev
      · exact absurd hrev (by simp)
      rename_i left' heq
      simp only [Except.ok.injEq] at hrev
      subst hrev
      simp only [revise]
      rw [if_neg hin, if_neg hexact, if_pos him, ihl lt rfl i v left' heq]
    · rename_i him
      split at hrev
      · exact absurd hrev (by simp)
      rename_i right' heq
      simp only [Except.ok.injEq] at hrev
      subst hrev
      simp only [revise]
      rw [if_neg hin, if_neg hexact, if_neg him, ihr rt rfl i v right' heq]

/-- An invalid query (empty range, or range escaping the node's
interval) panics at once, on any tree: the bounds check is the first
thing `ask` does. -/
theorem ask_error_of_invalid (t : SegTree) (a b : Nat)
    (h : b ≤ a ∨ a < t.range.1 ∨ t.range.2 < b) :
    ask t a b = .error "Invalid query range" := by
  obtain ⟨v0, rg, m, l, r⟩ := t
  simp only [range_mk] at h
  rcases l with _ | lt <;> rcases r with _ | rt <;>
    (simp only [ask]; rw [if_pos h])

/-- A valid query on a well-formed tree always returns a result. -/
theorem ask_ok_of_valid :
    ∀ t, wf t = true → ∀ a b, t.range.1 ≤ a → a < b → b ≤ t.range.2 →
      ∃ x, ask t a b = .ok x := by
  refine segInduction _ ?_
  intro v0 rg m l r ihl ihr hwf a b ha hab2 hb
  obtain ⟨lo, hi⟩ := rg
  simp only [range_mk] at ha hb
  rcases l with _ | lt <;> rcases r with _ | rt
  · obtain ⟨hhi, hm⟩ := (wf_leaf_iff v0 lo hi m).mp hwf
    subst hhi hm
    refine ⟨v0, ?_⟩
    simp only [ask]
    rw [if_neg (by omega), if_pos (by simp only [Prod.mk.injEq]; omega)]
  · simp [wf] at hwf
  · simp [wf] at hwf
  · obtain ⟨hab, hm, hltr, hrtr, hwfl, hwfr⟩ :=
      (wf_node_iff v0 lo hi m lt rt).mp hwf
    have ham : lo < m := by omega
    have hmb : m < hi := by omega
    by_cases hex : (a, b) = (lo, hi)
    · refine ⟨v0, ?_⟩
      simp only [ask]
      rw [if_neg (by omega), if_pos hex]
    by_cases hbm : b ≤ m
    · obtain ⟨x, hx⟩ := ihl lt rfl hwfl a b
        (by rw [hltr]; exact ha) hab2 (by rw [hltr]; exact hbm)
      refine ⟨x, ?_⟩
      simp only [ask]
      rw [if_neg (by omega), if_neg hex, if_pos hbm]
      exact hx
    by_cases hma : m ≤ a
    · obtain ⟨x, hx⟩ := ihr rt rfl hwfr a b
        (by rw [hrtr]; exact hma) hab2 (by rw [hrtr]; exact hb)
      refine ⟨x, ?_⟩
      simp only [ask]
      rw [if_neg (by omega), if_neg hex, if_neg hbm, if_pos hma]
      exact hx
    · obtain ⟨x, hx⟩ := ihl lt rfl hwfl a m
        (by rw [hltr]; exact ha) (by omega) (by rw [hltr])
      obtain ⟨y, hy⟩ := ihr rt rfl hwfr m b
        (by rw [hrtr]) (by omega) (by rw [hrtr]; exact hb)
      refine ⟨i32wrap (x + y), ?_⟩
      simp only [ask]
      rw [if_neg (by omega), if_neg hex, if_neg hbm, if_neg hma, hx, hy]

/-- In a well-formed, value-consistent tree with `i32`-ranged leaves,
every node's stored value is the `i32`-wrapped sum of the leaf values
it covers. -/
theorem val_eq_wrapSum :
    ∀ t, wf t = true → combOk t = true → valsIn32 t = true →
      t.val = i32wrap (∑ j in Finset.Ico t.range.1 t.range.2, leafFun t j) := by
  refine segInduction _ ?_
  intro v0 rg m l r ihl ihr hwf hcomb hvals
  obtain ⟨lo, hi⟩ := rg
  rcases l with _ | lt <;> rcases r with _ | rt
  · obtain ⟨hhi, hm⟩ := (wf_leaf_iff v0 lo hi m).mp hwf
    subst hhi hm
    have h32 : in32 v0 = true := by simpa [valsIn32] using hvals
    simp only [range_mk, val_mk, Nat.Ico_succ_singleton, Finset.sum_singleton]
    rw [show leafFun (.mk v0 (m, m + 1) m none none) m = v0 from rfl]
    exact (in32_i32wrap_eq_self h32).symm
  · simp [wf] at hwf
  · simp [wf] at hwf
  · obtain ⟨hab, hm, hltr, hrtr, hwfl, hwfr⟩ :=
      (wf_node_iff v0 lo hi m lt rt).mp hwf
    obtain ⟨hv0, hcl, hcr⟩ := (combOk_node_iff v0 (lo, hi) m lt rt).mp hcomb
    obtain ⟨hvl, hvr⟩ := (valsIn32_node_iff v0 (lo, hi) m lt rt).mp hvals
    have ham : lo ≤ m := by omega
    have hmb : m ≤ hi := by omega
    have hlsum := ihl lt rfl hwfl hcl hvl
    have hrsum := ihr rt rfl hwfr hcr hvr
    rw [hltr] at hlsum
    rw [hrtr] at hrsum
    simp only [range_mk, val_mk]
    rw [← Finset.sum_Ico_consecutive (fun j => leafFun
      (SegTree.mk v0 (lo, hi) m (some lt) (some rt)) j) ham hmb]
    have hleft : ∑ j in Finset.Ico lo m,
        leafFun (SegTree.mk v0 (lo, hi) m (some lt) (some rt)) j =
        ∑ j in Finset.Ico lo m, leafFun lt j := by
      refine Finset.sum_congr rfl ?_
      intro j hj
      rw [Finset.mem_Ico] at hj
      rw [leafFun_node, if_pos hj.2]
    have hright : ∑ j in Finset.Ico m hi,
        leafFun (SegTree.mk v0 (lo, hi) m (some lt) (some rt)) j =
        ∑ j in Finset.Ico m hi, leafFun rt j := by
      refine Finset.sum_congr rfl ?_
      intro j hj
      rw [Finset.mem_Ico] at hj
      rw [leafFun_node, if_neg (by omega)]
    rw [hleft, hright, hv0, comb, hlsum, hrsum, i32wrap_add_left,
      i32wrap_add_right]

/-- In a well-formed, value-consistent tree with `i32`-ranged leaves,
a valid query returns the `i32`-wrapped sum of the leaf values of the
queried interval. -/
theorem ask_eq_wrapSum :
    ∀ t, wf t = true → combOk t = true → valsIn32 t = true →
      ∀ a b, t.range.1 ≤ a → a < b → b ≤ t.range.2 →
        ask t a b = .ok (i32wrap (∑ j in Finset.Ico a b, leafFun t j)) := by
  refine segInduction _ ?_
  intro v0 rg m l r ihl ihr hwf hcomb hvals a b ha hab2 hb
  obtain ⟨lo, hi⟩ := rg
  simp only [range_mk] at ha hb
  rcases l with _ | lt <;> rcases r with _ | rt
  · obtain ⟨hhi, hm⟩ := (wf_leaf_iff v0 lo hi m).mp hwf
    subst hhi hm
    have h32 : in32 v0 = true := by simpa [valsIn32] using hvals
    have haeq : a = m := by omega
    have hbeq : b = m + 1 := by omega
    subst haeq hbeq
    simp only [ask]
    rw [if_neg (by omega)]
    simp [leafFun, in32_i32wrap_eq_self h32]
  · simp [wf] at hwf
  · simp [wf] at hwf
  · obtain ⟨hab, hm, hltr, hrtr, hwfl, hwfr⟩ :=
      (wf_node_iff v0 lo hi m lt rt).mp hwf
    obtain ⟨hv0, hcl, hcr⟩ := (combOk_node_iff v0 (lo, hi) m lt rt).mp hcomb
    obtain ⟨hvl, hvr⟩ := (valsIn32_node_iff v0 (lo, hi) m lt rt).mp hvals
    have ham : lo < m := by omega
    have hmb : m < hi := by omega
    by_cases hex : (a, b) = (lo, hi)
    · simp only [ask]
      rw [if_neg (by omega), if_pos hex]
      have hval := val_eq_wrapSum (.mk v0 (lo, hi) m (some lt) (some rt))
        hwf hcomb hvals
      simp only [range_mk, val_mk] at hval
      simp only [Prod.mk.injEq] at hex
      rw [hex.1, hex.2]
      exact congrArg Except.ok hval
    by_cases hbm : b ≤ m
    · simp only [ask]
      rw [if_neg (by omega), if_neg hex, if_pos hbm]
      rw [ihl lt rfl hwfl hcl hvl a b (by rw [hltr]; exact ha) hab2
        (by rw [hltr]; exact hbm)]
      have : ∑ j in Finset.Ico a b,
          leafFun (SegTree.mk v0 (lo, hi) m (some lt) (some rt)) j =
          ∑ j in Finset.Ico a b, leafFun lt j := by
        refine Finset.sum_congr rfl ?_
        intro j hj
        rw [Finset.mem_Ico] at hj
        rw [leafFun_node, if_pos (by omega)]
      rw [this]
    by_cases hma : m ≤ a
    · simp only [ask]
      rw [if_neg (by omega), if_neg hex, if_neg hbm, if_pos hma]
      rw [ihr rt rfl hwfr hcr hvr a b (by rw [hrtr]; exact hma) hab2
        (by rw [hrtr]; exact hb)]
      have : ∑ j in Finset.Ico a b,
          leafFun (SegTree.mk v0 (lo, hi) m (some lt) (some rt)) j =
          ∑ j in Finset.Ico a b, leafFun rt j := by
        refine Finset.sum_congr rfl ?_
        intro j hj
        rw [Finset.mem_Ico] at hj
        rw [leafFun_node, if_neg (by omega)]
      rw [this]
    · have hsplit := Finset.sum_Ico_consecutive (fun j => leafFun
        (SegTree.mk v0 (lo, hi) m (some lt) (some rt)) j)
        (le_of_lt (by omega : a < m)) (le_of_lt (by omega : m < b))
      have hleft : ∑ j in Finset.Ico a m,
          leafFun (SegTree.mk v0 (lo, hi) m (some lt) (some rt)) j =
          ∑ j in Finset.Ico a m, leafFun lt j := by
        refine Finset.sum_congr rfl ?_
        intro j hj
        rw [Finset.mem_Ico] at hj
        rw [leafFun_node, if_pos hj.2]
      have hright : ∑ j in Finset.Ico m b,
          leafFun (SegTree.mk v0 (lo, hi) m (some lt) (some rt)) j =
          ∑ j in Finset.Ico m b, leafFun rt j := by
        refine Finset.sum_congr rfl ?_
        intro j hj
        rw [Finset.mem_Ico] at hj
        rw [leafFun_node, if_neg (by omega)]
      have hval : i32wrap (i32wrap (∑ j in Finset.Ico a m, leafFun lt j) +
          i32wrap (∑ j in Finset.Ico m b, leafFun rt j)) =
          i32wrap (∑ j in Finset.Ico a b,
            leafFun (SegTree.mk v0 (lo, hi) m (some lt) (some rt)) j) := by
        rw [i32wrap_add_left, i32wrap_add_right, ← hsplit, hleft, hright]
      simp only [ask]
      rw [if_neg (by omega), if_neg hex, if_neg hbm, if_neg hma]
      rw [ihl lt rfl hwfl hcl hvl a m (by rw [hltr]; exact ha) (by omega)
        (by rw [hltr])]
      rw [ihr rt rfl hwfr hcr hvr m b (by rw [hrtr]) (by omega)
        (by rw [hrtr]; exact hb)]
      exact congrArg Except.ok hval

/-- Helper for the frame property: when the same optional subtree sits
at a path in the old and the new tree, every comparison is trivial. -/
theorem frame_same (X : Option SegTree) (C : SegTree → Prop) :
    (X = none ↔ X = none) ∧
    (∀ s s', X = some s → X = some s' →
      s'.range = s.range ∧ s'.mid = s.mid ∧
      s'.l_node.isSome = s.l_node.isSome ∧
      s'.r_node.isSome = s.r_node.isSome ∧ (C s → s' = s)) := by
  refine ⟨Iff.rfl, ?_⟩
  intro s s' hs hs'
  rw [hs] at hs'
  simp only [Option.some.injEq] at hs'
  subst hs'
  exact ⟨rfl, rfl, rfl, rfl, fun _ => rfl⟩

/-- C8: the frame property of a successful update. At every path,
the node keeps its range, midpoint and child layout, and every node
whose interval does not contain the updated index is left entirely
unchanged (value included); so only nodes on the root-to-leaf path
whose intervals contain the index can change, and only in their
`val` field. -/
theorem revise_frame :
    ∀ t, ∀ i v t', revise t i v = .ok t' → ∀ p : List Bool,
      (subtreeAt t' p = none ↔ subtreeAt t p = none) ∧
      (∀ s s', subtreeAt t p = some s → subtreeAt t' p = some s' →
        s'.range = s.range ∧ s'.mid = s.mid ∧
        s'.l_node.isSome = s.l_node.isSome ∧
        s'.r_node.isSome = s.r_node.isSome ∧
        ((i < s.range.1 ∨ s.range.2 ≤ i) → s' = s)) := by
  refine segInduction (fun t => ∀ i v t', revise t i v = .ok t' →
    ∀ p : List Bool,
      (subtreeAt t' p = none ↔ subtreeAt t p = none) ∧
      (∀ s s', subtreeAt t p = some s → subtreeAt t' p = some s' →
        s'.range = s.range ∧ s'.mid = s.mid ∧
        s'.l_node.isSome = s.l_node.isSome ∧
        s'.r_node.isSome = s.r_node.isSome ∧
        ((i < s.range.1 ∨ s.range.2 ≤ i) → s' = s))) ?_
  intro v0 rg m l r ihl ihr i v t' hrev
  have root_case : ∀ (w : Int) (l2 r2 : Option SegTree),
      ¬(i < rg.1 ∨ rg.2 ≤ i) →
      l2.isSome = l.isSome → r2.isSome = r.isSome →
      ∀ s s', subtreeAt (.mk v0 rg m l r) [] = some s →
        subtreeAt (.mk w rg m l2 r2) [] = some s' →
        s'.range = s.range ∧ s'.mid = s.mid ∧
        s'.l_node.isSome = s.l_node.isSome ∧
        s'.r_node.isSome = s.r_node.isSome ∧
        ((i < s.range.1 ∨ s.range.2 ≤ i) → s' = s) := by
    intro w l2 r2 hin hl2 hr2 s s' hs hs'
    simp only [subtreeAt, Option.some.injEq] at hs hs'
    subst hs hs'
    refine ⟨rfl, rfl, hl2, hr2, ?_⟩
    intro hmiss
    simp only [range_mk] at hmiss
    exact absurd hmiss hin
  rcases l with _ | lt <;> rcases r with _ | rt <;>
    simp only [revise] at hrev
  · split at hrev
    · exact absurd hrev (by simp)
    rename_i hin
    have hrest : ∀ (w : Int),
        t' = .mk w rg m none none → ∀ p : List Bool,
        (subtreeAt t' p = none ↔ subtreeAt (SegTree.mk v0 rg m none none) p = none) ∧
        (∀ s s', subtreeAt (SegTree.mk v0 rg m none none) p = some s →
          subtreeAt t' p = some s' →
          s'.range = s.range ∧ s'.mid = s.mid ∧
          s'.l_node.isSome = s.l_node.isSome ∧
          s'.r_node.isSome = s.r_node.isSome ∧
          ((i < s.range.1 ∨ s.range.2 ≤ i) → s' = s)) := by
      intro w ht' p
      subst ht'
      rcases p with _ | ⟨b, p'⟩
      · exact ⟨by simp [subtreeAt], root_case w none none hin rfl rfl⟩
      · cases b
        · exact ⟨by simp [subtreeAt], fun s s' hs => by simp [subtreeAt] at hs⟩
        · exact ⟨by simp [subtreeAt], fun s s' hs => by simp [subtreeAt] at hs⟩
    split at hrev
    · simp only [Except.ok.injEq] at hrev
      exact hrest v hrev.symm
    split at hrev <;>
      (simp only [Except.ok.injEq] at hrev; exact hrest _ hrev.symm)
  · split at hrev
    · exact absurd hrev (by simp)
    rename_i hin
    split at hrev
    · simp only [Except.ok.injEq] at hrev
      subst hrev
      intro p
      rcases p with _ | ⟨b, p'⟩
      · exact ⟨by simp [subtreeAt], root_case v none (some rt) hin rfl rfl⟩
      · cases b
        · exact frame_same _ _
        · exact frame_same _ _
    rename_i hexact
    split at hrev
    · rename_i him
      simp only [Except.ok.injEq] at hrev
      subst hrev
      intro p
      rcases p with _ | ⟨b, p'⟩
      · exact ⟨by simp [subtreeAt], root_case _ none (some rt) hin rfl rfl⟩
      · cases b
        · exact frame_same _ _
        · exact frame_same _ _
    · rename_i him
      split at hrev
      · exact absurd hrev (by simp)
      rename_i right' heq
      simp only [Except.ok.injEq] at hrev
      subst hrev
      intro p
      rcases p with _ | ⟨b, p'⟩
      · exact ⟨by simp [subtreeAt], root_case _ none (some right') hin rfl rfl⟩
      · cases b
        · exact frame_same _ _
        · simp only [subtreeAt]
          exact ihr rt rfl i v right' heq p'
  · split at hrev
    · exact absurd hrev (by simp)
    rename_i hin
    split at hrev
    · simp only [Except.ok.injEq] at hrev
      subst hrev
      intro p
      rcases p with _ | ⟨b, p'⟩
      · exact ⟨by simp [subtreeAt], root_case v (some lt) none hin rfl rfl⟩
      · cases b
        · exact frame_same _ _
        · exact frame_same _ _
    rename_i hexact
    split at hrev
    · rename_i him
      split at hrev
      · exact absurd hrev (by simp)
      rename_i left' heq
      simp only [Except.ok.injEq] at hrev
      subst hrev
      intro p
      rcases p with _ | ⟨b, p'⟩
      · exact ⟨by simp [subtreeAt], root_case _ (some left') none hin rfl rfl⟩
      · cases b
        · simp only [subtreeAt]
          exact ihl lt rfl i v left' heq p'
        · exact frame_same _ _
    · rename_i him
      simp only [Except.ok.injEq] at hrev
      subst hrev
      intro p
      rcases p with _ | ⟨b, p'⟩
      · exact ⟨by simp [subtreeAt], root_case _ (some lt) none hin rfl rfl⟩
      · cases b
        · exact frame_same _ _
        · exact frame_same _ _
  · split at hrev
    · exact absurd hrev (by simp)
    rename_i hin
    split at hrev
    · simp only [Except.ok.injEq] at hrev
      subst hrev
      intro p
      rcases p with _ | ⟨b, p'⟩
      · exact ⟨by simp [subtreeAt], root_case v (some lt) (some rt) hin rfl rfl⟩
      · cases b
        · exact frame_same _ _
        · exact frame_same _ _
    rename_i hexact
    split at hrev
    · rename_i him
      split at hrev
      · exact absurd hrev (by simp)
      rename_i left' heq
      simp only [Except.ok.injEq] at hrev
      subst hrev
      intro p
      rcases p with _ | ⟨b, p'⟩
      · exact ⟨by simp [subtreeAt],
          root_case _ (some left') (some rt) hin rfl rfl⟩
      · cases b
        · simp only [subtreeAt]
          exact ihl lt rfl i v left' heq p'
        · exact frame_same _ _
    · rename_i him
      split at hrev
      · exact absurd hrev (by simp)
      rename_i right' heq
      simp only [Except.ok.injEq] at hrev
      subst hrev
      intro p
      rcases p with _ | ⟨b, p'⟩
      · exact ⟨by simp [subtreeAt],
          root_case _ (some lt) (some right') hin rfl rfl⟩
      · cases b
        · exact frame_same _ _
        · simp only [subtreeAt]
          exact ihr rt rfl i v right' heq p'

theorem lastVal_eq_updFold (us : List (Nat × Int)) :
    lastVal us = updFold us (fun _ => 0) := rfl

theorem updFold_cons (i : Nat) (v : Int) (rest : List (Nat × Int))
    (f : Nat → Int) :
    updFold ((i, v) :: rest) f = updFold rest (fun j => if j = i then v else f j) :=
  rfl

theorem updFold_congr :
    ∀ (us : List (Nat × Int)) (f g : Nat → Int) (j : Nat),
      f j = g j → updFold us f j = updFold us g j := by
  intro us
  induction us with
  | nil => intro f g j h; exact h
  | cons p rest ih =>
    intro f g j h
    obtain ⟨i, v⟩ := p
    rw [updFold_cons, updFold_cons]
    apply ih
    by_cases hj : j = i <;> simp [hj, h]

/-- Everything a successful sequence of updates preserves: shape
invariants and the range survive, and the leaf map is the original
leaf map overridden by the updates in order. -/
theorem applyUpdates_sound :
    ∀ (us : List (Nat × Int)) (t : SegTree), wf t = true →
      ∀ t', applyUpdates t us = .ok t' →
      wf t' = true ∧ t'.range = t.range ∧
      (combOk t = true → combOk t' = true) ∧
      (valsIn32 t = true → (∀ p ∈ us, in32 p.2 = true) → valsIn32 t' = true) ∧
      (∀ j, t.range.1 ≤ j → j < t.range.2 →
        leafFun t' j = updFold us (leafFun t) j) := by
  intro us
  induction us with
  | nil =>
    intro t hwf t' h
    simp only [applyUpdates, Except.ok.injEq] at h
    subst h
    exact ⟨hwf, rfl, fun h => h, fun h _ => h, fun j _ _ => rfl⟩
  | cons p rest ih =>
    obtain ⟨i, v⟩ := p
    intro t hwf t' h
    simp only [applyUpdates] at h
    split at h
    · exact absurd h (by simp)
    rename_i t1 heq
    obtain ⟨hwf1, hrg1, hmid1, hcomb1, hvals1, hleaf1⟩ :=
      revise_sound t hwf i v t1 heq
    obtain ⟨hwf', hrg', hcomb', hvals', hleaf'⟩ := ih t1 hwf1 t' h
    refine ⟨hwf', by rw [hrg', hrg1], ?_, ?_, ?_⟩
    · intro hc
      exact hcomb' (hcomb1 hc)
    · intro hv hall
      refine hvals' (hvals1 hv (hall (i, v) (by simp))) ?_
      intro q hq
      exact hall q (by simp [hq])
    · intro j hj1 hj2
      have hj1' : t1.range.1 ≤ j := by rw [hrg1]; exact hj1
      have hj2' : j < t1.range.2 := by rw [hrg1]; exact hj2
      rw [hleaf' j hj1' hj2', updFold_cons]
      exact updFold_congr rest _ _ j (hleaf1 j hj1 hj2)

theorem combOk_subtreeAt :
    ∀ (p : List Bool) (t : SegTree) (s : SegTree), combOk t = true →
      subtreeAt t p = some s → combOk s = true := by
  intro p
  induction p with
  | nil =>
    intro t s hc hs
    simp only [subtreeAt, Option.some.injEq] at hs
    subst hs
    exact hc
  | cons b p' ih =>
    intro t s hc hs
    obtain ⟨v0, rg, m, l, r⟩ := t
    cases b
    · rcases l with _ | lt
      · simp [subtreeAt] at hs
      · simp only [subtreeAt] at hs
        refine ih lt s ?_ hs
        rcases r with _ | rt <;>
          simp only [combOk, Bool.and_eq_true] at hc
        · exact hc.2
        · exact hc.1.2
    · rcases r with _ | rt
      · simp [subtreeAt] at hs
      · simp only [subtreeAt] at hs
        refine ih rt s ?_ hs
        rcases l with _ | lt <;>
          simp only [combOk, Bool.and_eq_true] at hc
        · exact hc.2
        · exact hc.2

/-- C1 counterexample: on the tree built over `[0, 2)`, updating index
0 to `2147483647` and index 1 to `1` makes `query(0, 2)` return
`-2147483648` (`i32` overflow), while the mathematical sum of the
most-recently-set values is `2147483648`. The claim as stated (query
returns the sum) is therefore false at this input. -/
theorem c1_overflow_counterexample :
    newT 2 0 2 = some (Except.ok tree2) ∧
    applyUpdates tree2 [(0, 2147483647), (1, 1)] = Except.ok tree2w ∧
    ask tree2w 0 2 = Except.ok (-2147483648) ∧
    (∑ j in Finset.Ico 0 2, lastVal [(0, 2147483647), (1, 1)] j) = 2147483648 ∧
    (-2147483648 : Int) ≠ 2147483648 := by
  refine ⟨rfl, rfl, rfl, by decide, by decide⟩

/-- C1 (amended): for every tree built over `[lo, hi)` and every
sequence of in-`i32`-range point updates applied to it, `query(a, b)`
with `lo ≤ a < b ≤ hi` returns the sum of the most-recently-set value
of each index in `[a, b)` (never-updated indices contributing 0),
reduced modulo `2^32` into the `i32` range (`i32wrap`); without the
reduction the claim fails, see the counterexample. -/
theorem query_eq_wrapped_lastVal_sum (fuel lo hi : Nat) (t : SegTree)
    (us : List (Nat × Int)) (t' : SegTree) (a b : Nat)
    (hnew : newT fuel lo hi = some (Except.ok t))
    (hvals : ∀ p ∈ us, in32 p.2 = true)
    (hupd : applyUpdates t us = Except.ok t')
    (ha : lo ≤ a) (hab : a < b) (hb : b ≤ hi) :
    ask t' a b = Except.ok (i32wrap (∑ j in Finset.Ico a b, lastVal us j)) := by
  obtain ⟨hlr, hrg, hwf, hcomb, hv32, hval, hleaf⟩ := new_sound hnew
  obtain ⟨hwf', hrg', hcomb', hvals', hleaf'⟩ :=
    applyUpdates_sound us t hwf t' hupd
  have ha' : t'.range.1 ≤ a := by rw [hrg', hrg]; exact ha
  have hb' : b ≤ t'.range.2 := by rw [hrg', hrg]; exact hb
  rw [ask_eq_wrapSum t' hwf' (hcomb' hcomb) (hvals' hv32 hvals) a b ha' hab hb']
  have hsum : ∑ j in Finset.Ico a b, leafFun t' j =
      ∑ j in Finset.Ico a b, lastVal us j := by
    refine Finset.sum_congr rfl ?_
    intro j hj
    rw [Finset.mem_Ico] at hj
    have hj1 : t.range.1 ≤ j := by rw [hrg]; omega
    have hj2 : j < t.range.2 := by rw [hrg]; omega
    rw [hleaf' j hj1 hj2, lastVal_eq_updFold]
    exact updFold_congr us _ _ j (hleaf j)
  rw [hsum]

/-- C1 (amended) witness: over `[0, 2)` with updates `0 ↦ 1`, `1 ↦ 2`,
`query(0, 2)` returns the wrapped sum of the two stored values. -/
theorem query_eq_wrapped_lastVal_sum_witness :
    ask (.mk 3 (0, 2) 1 (some (.mk 1 (0, 1) 0 none none))
      (some (.mk 2 (1, 2) 1 none none))) 0 2 =
      Except.ok (i32wrap (∑ j in Finset.Ico 0 2, lastVal [(0, 1), (1, 2)] j)) :=
  query_eq_wrapped_lastVal_sum 2 0 2 tree2 [(0, 1), (1, 2)]
    (.mk 3 (0, 2) 1 (some (.mk 1 (0, 1) 0 none none))
      (some (.mk 2 (1, 2) 1 none none))) 0 2
    rfl (by decide) rfl (by decide) (by decide) (by decide)

/-- C2: `SegTree::new(0, 1)` never finishes, for any recursion budget:
`new` unconditionally builds two children `build(0, 0)` and
`build(0, 1)`, and `build(0, 0)` recurses on `(0, 0)` forever. The
spec instead requires construction over any `lo < hi` to terminate,
allocating a leaf when `hi - lo == 1`; the code lacks the leaf case in
`new` itself, so this is a code bug (stack overflow in Rust). -/
theorem new_unit_width_diverges : ∀ fuel, newT fuel 0 1 = none := by
  intro fuel
  have h0 : build fuel 0 0 = none := build_empty_range_none fuel 0 0 le_rfl
  simp only [newT]
  rw [if_neg (by omega)]
  show (match build fuel 0 0, build fuel 0 1 with
        | some lt, some rt =>
          some (Except.ok (SegTree.mk 0 (0, 1) 0 (some lt) (some rt)))
        | _, _ => none) = none
  rw [h0]

/-- C3 counterexample: after updating the `[0, 2)` tree at index 0 to
`2147483647` and index 1 to `1`, the root stores `-2147483648`, which
is not the mathematical sum `2147483648` of its children's stored
values: the recombination is `i32` (wrapping) addition. -/
theorem c3_overflow_counterexample :
    applyUpdates tree2 [(0, 2147483647), (1, 1)] = Except.ok tree2w ∧
    tree2w.l_node = some (.mk 2147483647 (0, 1) 0 none none) ∧
    tree2w.r_node = some (.mk 1 (1, 2) 1 none none) ∧
    tree2w.val = -2147483648 ∧
    (2147483647 : Int) + 1 = 2147483648 ∧
    tree2w.val ≠ 2147483647 + 1 := by
  refine ⟨rfl, rfl, rfl, rfl, by decide, by decide⟩

/-- C3 (amended): after any completed update on a reachable tree,
every internal node (at any path in the tree) stores exactly
`comb` of its children's stored values, i.e. their sum wrapped into
`i32` by reduction modulo `2^32`; the unwrapped equality fails, see
the counterexample. -/
theorem update_internal_nodes_comb (t : SegTree) (i : Nat) (v : Int)
    (t' : SegTree) (hwf : wf t = true) (hcomb : combOk t = true)
    (hrev : revise t i v = .ok t') :
    ∀ (p : List Bool) (s lc rc : SegTree),
      subtreeAt t' p = some s → s.l_node = some lc → s.r_node = some rc →
      s.val = comb lc.val rc.val := by
  intro p s lc rc hs hl hr
  obtain ⟨hwf', hrg', hmid', hcomb', hvals', hleaf'⟩ :=
    revise_sound t hwf i v t' hrev
  have hcs : combOk s = true := combOk_subtreeAt p t' s (hcomb' hcomb) hs
  obtain ⟨v0, rg, m, l2, r2⟩ := s
  simp only [l_node_mk] at hl
  simp only [r_node_mk] at hr
  subst hl hr
  exact ((combOk_node_iff v0 rg m lc rc).mp hcs).1

/-- C3 (amended) witness: after `revise(0, 5)` on the `[0, 2)` tree,
the root (path `[]`) stores `comb` of its two children's values. -/
theorem update_internal_nodes_comb_witness :
    (SegTree.mk 5 (0, 2) 1 (some (.mk 5 (0, 1) 0 none none))
      (some (.mk 0 (1, 2) 1 none none))).val =
      comb (SegTree.mk 5 (0, 1) 0 none none).val
        (SegTree.mk 0 (1, 2) 1 none none).val :=
  update_internal_nodes_comb tree2 0 5 tree2u5 (by decide) (by decide) rfl
    [] tree2u5 (.mk 5 (0, 1) 0 none none) (.mk 0 (1, 2) 1 none none)
    rfl rfl rfl

/-- C4: on the tree built over `[0, 10)`, after updating each index
`i` in `0..9` to value `i`, the four queries of the documented test
scenario return 45, 10, 35 and 18. -/
theorem demo_scenario :
    newT 16 0 10 = some (Except.ok tree10) ∧
    (applyUpdates tree10 demoUpdates).bind (fun t => ask t 0 10) =
      Except.ok 45 ∧
    (applyUpdates tree10 demoUpdates).bind (fun t => ask t 0 5) =
      Except.ok 10 ∧
    (applyUpdates tree10 demoUpdates).bind (fun t => ask t 5 10) =
      Except.ok 35 ∧
    (applyUpdates tree10 demoUpdates).bind (fun t => ask t 3 7) =
      Except.ok 18 := by
  exact ⟨rfl, rfl, rfl, rfl, rfl⟩

/-- C5: on a well-formed tree, `ask(lo_q, hi_q)` fails with the
"Invalid query range" panic exactly when the queried range is empty
(`hi_q ≤ lo_q`) or not contained in the covered interval, and
otherwise returns a result without error. -/
theorem ask_error_iff (t : SegTree) (a b : Nat) (hwf : wf t = true) :
    (ask t a b = .error "Invalid query range" ↔
      (b ≤ a ∨ a < t.range.1 ∨ t.range.2 < b)) ∧
    ((t.range.1 ≤ a ∧ a < b ∧ b ≤ t.range.2) → ∃ x, ask t a b = .ok x) := by
  constructor
  · constructor
    · intro herr
      by_contra hnot
      push_neg at hnot
      obtain ⟨x, hx⟩ := ask_ok_of_valid t hwf a b (by omega) (by omega) (by omega)
      rw [hx] at herr
      exact Except.noConfusion herr
    · exact ask_error_of_invalid t a b
  · intro ⟨h1, h2, h3⟩
    exact ask_ok_of_valid t hwf a b h1 h2 h3

/-- C5 witness: on the `[0, 2)` tree, `ask(2, 0)` fails with the
query-range panic and `ask(0, 2)` returns a result. -/
theorem ask_error_iff_witness :
    (ask tree2 2 0 = .error "Invalid query range" ↔
      ((0 : Nat) ≤ 2 ∨ 2 < tree2.range.1 ∨ tree2.range.2 < 0)) ∧
    ((tree2.range.1 ≤ 0 ∧ 0 < 2 ∧ 2 ≤ tree2.range.2) →
      ∃ x, ask tree2 0 2 = .ok x) := by
  have h1 := (ask_error_iff tree2 2 0 (by decide)).1
  have h2 := (ask_error_iff tree2 0 2 (by decide)).2
  exact ⟨h1, h2⟩

/-- C6: on a well-formed tree, `revise(index, value)` fails with the
"Target index out of range" panic exactly when `index` is outside the
covered interval, and otherwise succeeds. In this pure embedding a
failing update returns only the error and no tree, so no node's value
is modified (the Rust check precedes every write). -/
theorem revise_error_iff (t : SegTree) (i : Nat) (v : Int)
    (hwf : wf t = true) :
    (revise t i v = .error "Target index out of range" ↔
      (i < t.range.1 ∨ t.range.2 ≤ i)) ∧
    ((t.range.1 ≤ i ∧ i < t.range.2) → ∃ t', revise t i v = .ok t') := by
  constructor
  · constructor
    · intro herr
      by_contra hnot
      push_neg at hnot
      obtain ⟨t', ht'⟩ := revise_ok_of_in t hwf i v (by omega) (by omega)
      rw [ht'] at herr
      exact Except.noConfusion herr
    · exact revise_error_of_out t i v
  · intro ⟨h1, h2⟩
    exact revise_ok_of_in t hwf i v h1 h2

/-- C6 witness: on the `[0, 2)` tree, `revise(2, 7)` fails with the
out-of-range panic and `revise(0, 7)` succeeds. -/
theorem revise_error_iff_witness :
    (revise tree2 2 7 = .error "Target index out of range" ↔
      (2 < tree2.range.1 ∨ tree2.range.2 ≤ 2)) ∧
    ((tree2.range.1 ≤ 0 ∧ 0 < tree2.range.2) →
      ∃ t', revise tree2 0 7 = .ok t') := by
  have h1 := (revise_error_iff tree2 2 7 (by decide)).1
  have h2 := (revise_error_iff tree2 0 7 (by decide)).2
  exact ⟨h1, h2⟩

/-- C7: construction fails with the invalid-range panic whenever
`lo ≥ hi` (both `lo = hi` and `lo > hi`), for every fuel, so it never
silently produces a degenerate or empty tree for such inputs. -/
theorem new_invalid_range (fuel l r : Nat) (h : r ≤ l) :
    newT fuel l r =
      some (.error "Invalid range: left bound must be less than right bound") := by
  simp only [newT]
  rw [if_pos h]

/-- C7 witness: `new(5, 5)` and `new(5, 2)` both fail with the
invalid-range panic. -/
theorem new_invalid_range_witness :
    newT 3 5 5 =
      some (.error "Invalid range: left bound must be less than right bound") ∧
    newT 3 5 2 =
      some (.error "Invalid range: left bound must be less than right bound") :=
  ⟨new_invalid_range 3 5 5 (by decide), new_invalid_range 3 5 2 (by decide)⟩

/-- C8 witness: after `revise(0, 5)` on the `[0, 2)` tree, the node at
path `[true]` (the right leaf, whose interval does not contain 0) is
entirely unchanged, and shapes agree. -/
theorem revise_frame_witness :
    (subtreeAt tree2u5 [true] = none ↔ subtreeAt tree2 [true] = none) ∧
    (∀ s s', subtreeAt tree2 [true] = some s →
      subtreeAt tree2u5 [true] = some s' →
      s'.range = s.range ∧ s'.mid = s.mid ∧
      s'.l_node.isSome = s.l_node.isSome ∧
      s'.r_node.isSome = s.r_node.isSome ∧
      ((0 < s.range.1 ∨ s.range.2 ≤ 0) → s' = s)) :=
  revise_frame tree2 0 5 tree2u5 rfl [true]

/-- C9: updating the same index twice with the same value yields a
tree on which every query (valid or not) returns the same result as
after a single update. -/
theorem update_twice_queries_unchanged (t : SegTree) (i : Nat) (v : Int)
    (t1 t2 : SegTree) (h1 : revise t i v = .ok t1)
    (h2 : revise t1 i v = .ok t2) :
    ∀ a b, ask t2 a b = ask t1 a b := by
  have hidem := revise_idem t i v t1 h1
  rw [hidem] at h2
  simp only [Except.ok.injEq] at h2
  subst h2
  intro a b
  rfl

/-- C9 witness: two `revise(0, 5)` calls on the `[0, 2)` tree leave
`query(0, 2)` the same as one. -/
theorem update_twice_queries_unchanged_witness :
    ask tree2u5 0 2 = ask tree2u5 0 2 :=
  update_twice_queries_unchanged tree2 0 5 tree2u5 tree2u5 rfl rfl 0 2

/-- C10: all stored values and sums are `i32` arithmetic: a valid
query on a reachable tree returns exactly the mathematical sum of the
covered leaf values reduced modulo `2^32` and shifted into the `i32`
range `[-2147483648, 2147483648)` — not the arbitrary-precision sum. -/
theorem query_is_i32_arithmetic (t : SegTree) (a b : Nat)
    (hwf : wf t = true) (hcomb : combOk t = true)
    (hvals : valsIn32 t = true)
    (ha : t.range.1 ≤ a) (hab : a < b) (hb : b ≤ t.range.2) :
    ask t a b = Except.ok
      ((((∑ j in Finset.Ico a b, leafFun t j) + 2147483648) % 4294967296) -
        2147483648) ∧
    ∃ x, ask t a b = .ok x ∧ -2147483648 ≤ x ∧ x < 2147483648 := by
  have h := ask_eq_wrapSum t hwf hcomb hvals a b ha hab hb
  exact ⟨h, ⟨_, h, i32wrap_lb _, i32wrap_ub _⟩⟩

/-- C10 witness: on the overflowed `[0, 2)` tree, `query(0, 2)` is the
wrapped (mod `2^32`, shifted into `i32`) value of the sum
`2147483647 + 1`, and lies in the `i32` range. -/
theorem query_is_i32_arithmetic_witness :
    ask tree2w 0 2 = Except.ok
      ((((∑ j in Finset.Ico 0 2, leafFun tree2w j) + 2147483648) %
        4294967296) - 2147483648) ∧
    ∃ x, ask tree2w 0 2 = .ok x ∧ -2147483648 ≤ x ∧ x < 2147483648 :=
  query_is_i32_arithmetic tree2w 0 2 (by decide) (by decide) (by decide)
    (by decide) (by decide) (by decide)

end SegTreeModel
